import Mathlib

/-!
Shallow embedding of the Evil Hangman candidate-refinement engine
(class `EvilHangman` in `src/evil_hangman.py`; the CLI variant in
`src/evil_hangman_cli.py` has the same engine logic).

Python strings are modelled as `List Char`; Python `int` as `Int` where the
value can go negative (`guesses_left`, `max_guesses`) and `Nat` for word
lengths; the words-by-length dictionary as an insertion-ordered association
list; Python sets of guesses as duplicate-free lists.  `random.choice` is
modelled by an externally supplied random index.  An uncaught Python
exception is modelled by `none`.  The human-readable `message` field, a pure
presentation concern, is not modelled.
-/

set_option autoImplicit false

/-- Words and string values are modelled as lists of characters
(Python iterates a string character by character). -/
abbrev Word := List Char

/-- The 26 lowercase ASCII letters.  The dictionary-index invariant of the
design restricts words to lowercase alphabetic characters. -/
def azChars : List Char :=
  ['a','b','c','d','e','f','g','h','i','j','k','l','m',
   'n','o','p','q','r','s','t','u','v','w','x','y','z']

/-- Models Python `str.lower()` (`guess = guess.lower()`); agrees with it on
ASCII input. -/
def pyLower (g : List Char) : List Char := g.map Char.toLower

/-- Models the loop body of `EvilHangman._get_word_patterns`:
`pattern = self.current_pattern.copy()` followed by
`for i, letter in enumerate(word): if letter == guess: pattern[i] = guess`.
The comparison `letter == guess` compares the one-character string of
`letter` with the whole guess string, and on success stores that same
one-character string; pattern positions past the end of the word keep the
current pattern.  (Python would raise IndexError only if a word were longer
than the pattern while holding the guess past its end; the dictionary-index
invariant, every word's length equal to its key, excludes that case.) -/
def inducedPattern (guess : List Char) : List Char → Word → List Char
  | pat, [] => pat
  | [], _ :: _ => []
  | pc :: pat, wc :: w => (if [wc] = guess then wc else pc) :: inducedPattern guess pat w

/-- Appends a word to the group of its pattern key, creating the group at the
end when the key is new: exactly the behaviour of an insertion-ordered
`collections.defaultdict(list)` receiving `patterns[pattern_key].append(word)`. -/
def groupInsert (k : List Char) (w : Word) :
    List (List Char × List Word) → List (List Char × List Word)
  | [] => [(k, [w])]
  | (k₀, ws) :: rest =>
    if k₀ = k then (k₀, ws ++ [w]) :: rest else (k₀, ws) :: groupInsert k w rest

/-- Groups a list of words by a key function, left to right, starting from a
given accumulator of groups. -/
def groupWords (key : Word → List Char) (words : List Word)
    (acc : List (List Char × List Word)) : List (List Char × List Word) :=
  words.foldl (fun groups w => groupInsert (key w) w groups) acc

/-- Models `EvilHangman._get_word_patterns(guess)`: group the possible words
by the pattern each one induces on the current pattern. -/
def getWordPatterns (pat guess : List Char) (words : List Word) :
    List (List Char × List Word) :=
  groupWords (fun w => inducedPattern guess pat w) words []

/-- Models `max(patterns.items(), key=lambda x: len(x[1]))`: the first item of
maximal group size in iteration order; `none` models the `ValueError` raised
by `max` on an empty dictionary. -/
def maxGroup (l : List (List Char × List Word)) : Option (List Char × List Word) :=
  match l with
  | [] => none
  | x :: xs => some (xs.foldl (fun best y => if best.2.length < y.2.length then y else best) x)

/-- Models `random.choice(l)` by an externally supplied random index `r`;
`none` models the `IndexError` raised on an empty list. -/
def randomChoice (l : List Word) (r : Nat) : Option Word := l.get? (r % l.length)

/-- Models Python `set.add` on a set modelled as a duplicate-free list. -/
def setAdd (x : List Char) (s : List (List Char)) : List (List Char) :=
  if x ∈ s then s else x :: s

/-- The state of an `EvilHangman` engine object.  The `message` field of the
Python object (human-readable presentation text) is not modelled.
`guesses_left` and `max_guesses` are Python ints that can go negative,
hence `Int`. -/
structure EvilHangman where
  all_words : List (Nat × List Word)
  word_length : Nat
  max_guesses : Int
  guesses_left : Int
  guessed_letters : List (List Char)
  current_pattern : List Char
  possible_words : List Word
  game_over : Bool
  won : Bool
deriving DecidableEq

/-- Result of a `make_guess` call: the returned boolean, the engine state
after the call, and the word revealed by `random.choice` at loss time
(`none` otherwise). -/
structure GuessResult where
  accepted : Bool
  state : EvilHangman
  revealed : Option Word
deriving DecidableEq

/-- Models `EvilHangman.start_game(word_length, max_guesses)`. -/
def start_game (s : EvilHangman) (word_length : Nat) (max_guesses : Int) :
    Bool × EvilHangman :=
  match s.all_words.lookup word_length with
  | none => (false, s)
  | some ws =>
    if ws.length < 2 then (false, s)
    else
      (true,
        { s with
          word_length := word_length
          max_guesses := max_guesses
          guesses_left := max_guesses
          guessed_letters := []
          current_pattern := List.replicate word_length '_'
          possible_words := ws
          game_over := false
          won := false })

/-- Models `EvilHangman.make_guess(guess)`.  Python compares the old and new
patterns as joined strings; two joined strings of one-character entries are
equal exactly when the underlying lists are, so the lists are compared
directly.  `none` models an uncaught exception (`max()` on an empty grouping
or `random.choice` on an empty list, impossible from reachable states). -/
def make_guess (s : EvilHangman) (g : List Char) (r : Nat) : Option GuessResult :=
  let guess := pyLower g
  if s.game_over = true then some ⟨false, s, none⟩
  else if guess ∈ s.guessed_letters then some ⟨false, s, none⟩
  else
    let s₁ : EvilHangman := { s with guessed_letters := setAdd guess s.guessed_letters }
    match maxGroup (getWordPatterns s₁.current_pattern guess s₁.possible_words) with
    | none => none
    | some best =>
      let s₂ : EvilHangman := { s₁ with current_pattern := best.1, possible_words := best.2 }
      let s₃ : EvilHangman :=
        if s₁.current_pattern = s₂.current_pattern then
          { s₂ with guesses_left := s₂.guesses_left - 1 }
        else s₂
      if '_' ∉ s₃.current_pattern then
        some ⟨true, { s₃ with game_over := true, won := true }, none⟩
      else if s₃.guesses_left ≤ 0 then
        match randomChoice s₃.possible_words r with
        | none => none
        | some w => some ⟨true, { s₃ with game_over := true }, some w⟩
      else some ⟨true, s₃, none⟩

/-- Runs a sequence of guesses (each with its random index) through
`make_guess`, threading the state. -/
def playGuesses (s : EvilHangman) : List (List Char × Nat) → Option EvilHangman
  | [] => some s
  | (g, r) :: rest =>
    match make_guess s g r with
    | none => none
    | some res => playGuesses res.state rest

/-- Well-formedness of the dictionary index (the data-model invariant of the
design): every key is a positive length and every word stored under key `L`
has length `L` and only lowercase alphabetic characters. -/
def WFIndex (aw : List (Nat × List Word)) : Prop :=
  ∀ p ∈ aw, 1 ≤ p.1 ∧ ∀ w ∈ p.2, w.length = p.1 ∧ ∀ c ∈ w, c ∈ azChars

/-- A word is consistent with a pattern of the same length under a set of
guessed strings: revealed positions match the word and every blank position
holds a character whose one-character string was never guessed. -/
def consistentWith (gl : List (List Char)) : List Char → Word → Prop
  | [], [] => True
  | pc :: pat, wc :: w =>
    (if pc = '_' then [wc] ∉ gl else wc = pc) ∧ consistentWith gl pat w
  | _, _ => False

/-- Session invariant established by `start_game` and preserved by
`make_guess`. -/
def SessionInv (s : EvilHangman) : Prop :=
  s.possible_words ≠ [] ∧
  s.current_pattern.length = s.word_length ∧
  (s.game_over = false → s.won = false) ∧
  (s.game_over = false → '_' ∈ s.current_pattern) ∧
  ∀ w ∈ s.possible_words,
    (∀ c ∈ w, c ∈ azChars) ∧ consistentWith s.guessed_letters s.current_pattern w

/-- Engine states reachable from a successful `start_game` on a well-formed
index by any sequence of `make_guess` calls. -/
inductive Reachable : EvilHangman → Prop
  | start (s : EvilHangman) (L : Nat) (M : Int) :
      WFIndex s.all_words → (start_game s L M).1 = true →
      Reachable (start_game s L M).2
  | step (s : EvilHangman) (g : List Char) (r : Nat) (res : GuessResult) :
      Reachable s → make_guess s g r = some res → Reachable res.state

def wBass : Word := ['b','a','s','s']
def wCats : Word := ['c','a','t','s']
def wDogs : Word := ['d','o','g','s']
def wCars : Word := ['c','a','r','s']

/-- A freshly constructed engine over the four-word index of the design
scenario, with the session fields as set by `EvilHangman.__init__`. -/
def testEngine : EvilHangman :=
  { all_words := [(4, [wBass, wCats, wDogs, wCars])]
    word_length := 0
    max_guesses := 0
    guesses_left := 0
    guessed_letters := []
    current_pattern := []
    possible_words := []
    game_over := false
    won := false }

/-- The session right after `start_game(4, 6)` on the test engine. -/
def testStart : EvilHangman := (start_game testEngine 4 6).2

/-! ### Lemmas about the grouping routine -/

theorem inducedPattern_nil_word (g : List Char) (pat : List Char) :
    inducedPattern g pat [] = pat := by
  cases pat <;> rfl

theorem inducedPattern_length (g : List Char) :
    ∀ (w : Word) (pat : List Char), (inducedPattern g pat w).length = pat.length := by
  intro w
  induction w with
  | nil => intro pat; rw [inducedPattern_nil_word]
  | cons wc w ih =>
    intro pat
    cases pat with
    | nil => rfl
    | cons pc pat => simp [inducedPattern, ih pat]

theorem maxFold_mem :
    ∀ (xs : List (List Char × List Word)) (b : List Char × List Word),
      xs.foldl (fun best y => if best.2.length < y.2.length then y else best) b = b ∨
      xs.foldl (fun best y => if best.2.length < y.2.length then y else best) b ∈ xs := by
  intro xs
  induction xs with
  | nil => intro b; left; rfl
  | cons y ys ih =>
    intro b
    simp only [List.foldl_cons]
    rcases ih (if b.2.length < y.2.length then y else b) with h | h
    · rw [h]
      by_cases hb : b.2.length < y.2.length
      · right; simp [hb]
      · left; simp [hb]
    · right; exact List.mem_cons_of_mem _ h

theorem maxFold_le :
    ∀ (xs : List (List Char × List Word)) (b : List Char × List Word),
      b.2.length ≤ (xs.foldl (fun best y => if best.2.length < y.2.length then y else best) b).2.length ∧
      ∀ y ∈ xs,
        y.2.length ≤ (xs.foldl (fun best y => if best.2.length < y.2.length then y else best) b).2.length := by
  intro xs
  induction xs with
  | nil => intro b; exact ⟨le_refl _, by simp⟩
  | cons y ys ih =>
    intro b
    simp only [List.foldl_cons]
    obtain ⟨h1, h2⟩ := ih (if b.2.length < y.2.length then y else b)
    have hby : b.2.length ≤ (if b.2.length < y.2.length then y else b).2.length := by
      by_cases hb : b.2.length < y.2.length
      · simp [hb]; exact le_of_lt hb
      · simp [hb]
    have hyy : y.2.length ≤ (if b.2.length < y.2.length then y else b).2.length := by
      by_cases hb : b.2.length < y.2.length
      · simp [hb]
      · simp [hb]; omega
    refine ⟨le_trans hby h1, ?_⟩
    intro z hz
    rcases List.mem_cons.1 hz with rfl | hz
    · exact le_trans hyy h1
    · exact h2 z hz

theorem maxGroup_mem {l : List (List Char × List Word)} {x : List Char × List Word}
    (h : maxGroup l = some x) : x ∈ l := by
  match l with
  | [] => simp [maxGroup] at h
  | y :: ys =>
    simp only [maxGroup, Option.some.injEq] at h
    rcases maxFold_mem ys y with h2 | h2
    · rw [h2] at h; exact h ▸ List.mem_cons_self _ _
    · exact h ▸ List.mem_cons_of_mem _ h2

theorem maxGroup_le {l : List (List Char × List Word)} {x : List Char × List Word}
    (h : maxGroup l = some x) : ∀ y ∈ l, y.2.length ≤ x.2.length := by
  match l with
  | [] => simp [maxGroup] at h
  | y₀ :: ys =>
    simp only [maxGroup, Option.some.injEq] at h
    obtain ⟨h1, h2⟩ := maxFold_le ys y₀
    intro z hz
    rcases List.mem_cons.1 hz with rfl | hz
    · exact h ▸ h1
    · exact h ▸ h2 z hz

theorem maxGroup_isSome {l : List (List Char × List Word)} (h : l ≠ []) :
    ∃ x, maxGroup l = some x := by
  match l with
  | [] => exact absurd rfl h
  | y :: ys => exact ⟨_, rfl⟩

theorem groupInsert_of_not_mem (k : List Char) (w : Word) :
    ∀ acc : List (List Char × List Word),
      k ∉ acc.map Prod.fst → groupInsert k w acc = acc ++ [(k, [w])] := by
  intro acc
  induction acc with
  | nil => intro; rfl
  | cons p rest ih =>
    intro h
    obtain ⟨k₀, ws⟩ := p
    simp only [List.map_cons, List.mem_cons] at h
    push_neg at h
    have hne : k₀ ≠ k := fun he => h.1 he.symm
    simp only [groupInsert, if_neg hne, List.cons_append, List.cons.injEq, true_and]
    exact ih h.2

theorem groupInsert_split (k : List Char) (w : Word) (ws : List Word) :
    ∀ (acc₁ acc₂ : List (List Char × List Word)),
      k ∉ acc₁.map Prod.fst →
      groupInsert k w (acc₁ ++ (k, ws) :: acc₂) = acc₁ ++ (k, ws ++ [w]) :: acc₂ := by
  intro acc₁
  induction acc₁ with
  | nil => intro acc₂ _; simp [groupInsert]
  | cons p rest ih =>
    intro acc₂ h
    obtain ⟨k₀, ws₀⟩ := p
    simp only [List.map_cons, List.mem_cons] at h
    push_neg at h
    have hne : k₀ ≠ k := fun he => h.1 he.symm
    simp only [List.cons_append, groupInsert, if_neg hne, List.cons.injEq, true_and]
    exact ih acc₂ h.2

theorem exists_split_of_mem_keys (k : List Char) :
    ∀ acc : List (List Char × List Word),
      k ∈ acc.map Prod.fst →
      ∃ (acc₁ : List (List Char × List Word)) (ws : List Word)
        (acc₂ : List (List Char × List Word)),
        acc = acc₁ ++ (k, ws) :: acc₂ ∧ k ∉ acc₁.map Prod.fst := by
  intro acc
  induction acc with
  | nil => intro h; simp at h
  | cons p rest ih =>
    intro h
    obtain ⟨k₀, ws₀⟩ := p
    by_cases hk : k₀ = k
    · subst hk
      exact ⟨[], ws₀, rest, by simp, by simp⟩
    · have hmem : k ∈ rest.map Prod.fst := by
        simp only [List.map_cons, List.mem_cons] at h
        rcases h with h | h
        · exact absurd h.symm hk
        · exact h
      obtain ⟨a₁, ws, a₂, he, hn⟩ := ih hmem
      refine ⟨(k₀, ws₀) :: a₁, ws, a₂, by simp [he], ?_⟩
      simp only [List.map_cons, List.mem_cons]
      push_neg
      exact ⟨fun he₂ => hk he₂.symm, hn⟩

/-- Invariant tying the accumulated groups to the list of words already
processed: each group is the filter of the processed words by its key, keys
are distinct, and every processed word's key is present. -/
def GroupsOK (key : Word → List Char) (done : List Word)
    (acc : List (List Char × List Word)) : Prop :=
  (∀ p ∈ acc, p.2 = done.filter (fun w => decide (key w = p.1)) ∧ p.2 ≠ []) ∧
  (acc.map Prod.fst).Nodup ∧
  (∀ w ∈ done, key w ∈ acc.map Prod.fst)

theorem filter_single_ne {key : Word → List Char} {w : Word} {k : List Char}
    (h : key w ≠ k) : [w].filter (fun x => decide (key x = k)) = [] := by
  simp [List.filter, h]

theorem filter_single_eq {key : Word → List Char} {w : Word} {k : List Char}
    (h : key w = k) : [w].filter (fun x => decide (key x = k)) = [w] := by
  simp [List.filter, h]

theorem groupsOK_insert (key : Word → List Char) (done : List Word)
    (acc : List (List Char × List Word)) (w : Word) (h : GroupsOK key done acc) :
    GroupsOK key (done ++ [w]) (groupInsert (key w) w acc) := by
  obtain ⟨hf, hnd, hcov⟩ := h
  by_cases hk : key w ∈ acc.map Prod.fst
  · obtain ⟨a₁, ws, a₂, rfl, hn₁⟩ := exists_split_of_mem_keys _ _ hk
    have hkeys : ((a₁ ++ (key w, ws) :: a₂).map Prod.fst) =
        a₁.map Prod.fst ++ key w :: a₂.map Prod.fst := by
      simp
    have hnd₂ : key w ∉ a₂.map Prod.fst := by
      rw [hkeys] at hnd
      have := (List.nodup_append.1 hnd).2.1
      exact (List.nodup_cons.1 this).1
    rw [groupInsert_split _ _ _ _ _ hn₁]
    refine ⟨?_, ?_, ?_⟩
    · intro p hp
      rcases List.mem_append.1 hp with hp | hp
      · have hold := hf p (List.mem_append.2 (Or.inl hp))
        have hne : key w ≠ p.1 := by
          intro he
          exact hn₁ (he ▸ List.mem_map_of_mem Prod.fst hp)
        rw [List.filter_append, filter_single_ne hne, List.append_nil]
        exact hold
      · rcases List.mem_cons.1 hp with rfl | hp
        · have hold := hf (key w, ws) (List.mem_append.2 (Or.inr (List.mem_cons_self _ _)))
          simp only at hold ⊢
          constructor
          · rw [List.filter_append, filter_single_eq rfl, ← hold.1]
          · simp
        · have hold := hf p (List.mem_append.2 (Or.inr (List.mem_cons_of_mem _ hp)))
          have hne : key w ≠ p.1 := by
            intro he
            exact hnd₂ (he ▸ List.mem_map_of_mem Prod.fst hp)
          rw [List.filter_append, filter_single_ne hne, List.append_nil]
          exact hold
    · have : ((a₁ ++ (key w, ws ++ [w]) :: a₂).map Prod.fst) =
          a₁.map Prod.fst ++ key w :: a₂.map Prod.fst := by simp
      rw [this, ← hkeys]
      exact hnd
    · intro x hx
      have hsame : ((a₁ ++ (key w, ws ++ [w]) :: a₂).map Prod.fst) =
          ((a₁ ++ (key w, ws) :: a₂).map Prod.fst) := by simp
      rw [hsame]
      rcases List.mem_append.1 hx with hx | hx
      · exact hcov x hx
      · rcases List.mem_singleton.1 hx with rfl
        exact hk
  · rw [groupInsert_of_not_mem _ _ _ hk]
    refine ⟨?_, ?_, ?_⟩
    · intro p hp
      rcases List.mem_append.1 hp with hp | hp
      · have hold := hf p hp
        have hne : key w ≠ p.1 := by
          intro he
          exact hk (he ▸ List.mem_map_of_mem Prod.fst hp)
        rw [List.filter_append, filter_single_ne hne, List.append_nil]
        exact hold
      · rcases List.mem_singleton.1 hp with rfl
        simp only
        have hdone : done.filter (fun x => decide (key x = key w)) = [] := by
          rw [List.filter_eq_nil_iff]
          intro x hx
          simp only [decide_eq_true_eq]
          intro he
          exact hk (he ▸ hcov x hx)
        constructor
        · rw [List.filter_append, hdone, List.nil_append, filter_single_eq rfl]
        · simp
    · have : ((acc ++ [(key w, [w])]).map Prod.fst) = acc.map Prod.fst ++ [key w] := by simp
      rw [this, List.nodup_append]
      exact ⟨hnd, List.nodup_singleton _, by simpa [List.disjoint_singleton] using hk⟩
    · intro x hx
      have : ((acc ++ [(key w, [w])]).map Prod.fst) = acc.map Prod.fst ++ [key w] := by simp
      rw [this]
      rcases List.mem_append.1 hx with hx | hx
      · exact List.mem_append.2 (Or.inl (hcov x hx))
      · rcases List.mem_singleton.1 hx with rfl
        exact List.mem_append.2 (Or.inr (List.mem_singleton.2 rfl))

theorem groupsOK_fold (key : Word → List Char) :
    ∀ (words done : List Word) (acc : List (List Char × List Word)),
      GroupsOK key done acc → GroupsOK key (done ++ words) (groupWords key words acc) := by
  intro words
  induction words with
  | nil =>
    intro done acc h
    simpa [groupWords] using h
  | cons w ws ih =>
    intro done acc h
    have h₂ := groupsOK_insert key done acc w h
    have h₃ := ih (done ++ [w]) _ h₂
    simpa [groupWords, List.append_assoc] using h₃

theorem getWordPatterns_ok (pat guess : List Char) (words : List Word) :
    GroupsOK (fun w => inducedPattern guess pat w) words
      (getWordPatterns pat guess words) := by
  have h0 : GroupsOK (fun w => inducedPattern guess pat w) [] [] :=
    ⟨by simp, by simp, by simp⟩
  simpa [getWordPatterns] using
    groupsOK_fold (fun w => inducedPattern guess pat w) words [] [] h0

theorem getWordPatterns_ne_nil (pat guess : List Char) {words : List Word}
    (h : words ≠ []) : getWordPatterns pat guess words ≠ [] := by
  obtain ⟨w, hw⟩ := List.exists_mem_of_ne_nil words h
  have hcov := (getWordPatterns_ok pat guess words).2.2 w hw
  intro he
  rw [he] at hcov
  simp at hcov

/-! ### Lemmas about make_guess -/

theorem randomChoice_mem {l : List Word} {r : Nat} {w : Word}
    (h : randomChoice l r = some w) : w ∈ l := by
  unfold randomChoice at h
  exact List.get?_mem h

theorem randomChoice_isSome (l : List Word) (r : Nat) (h : l ≠ []) :
    ∃ w, randomChoice l r = some w := by
  have hlen : 0 < l.length := List.length_pos.2 h
  have hlt : r % l.length < l.length := Nat.mod_lt _ hlen
  exact ⟨_, List.get?_eq_get hlt⟩

/-- Rejection is a pure no-op: on a finished game or a repeated letter,
make_guess returns false and the state (and no revealed word) unchanged. -/
theorem make_guess_rejected {s : EvilHangman} {g : List Char} (r : Nat)
    (h : s.game_over = true ∨ pyLower g ∈ s.guessed_letters) :
    make_guess s g r = some ⟨false, s, none⟩ := by
  rcases h with h | h
  · simp [make_guess, h]
  · cases hgo : s.game_over
    · simp [make_guess, hgo, h]
    · simp [make_guess, hgo]

/-- On an in-progress game with a fresh guess and non-empty candidates,
make_guess always returns an accepted result (no exception). -/
theorem make_guess_total (s : EvilHangman) (g : List Char) (r : Nat)
    (hGo : s.game_over = false) (hNew : pyLower g ∉ s.guessed_letters)
    (hne : s.possible_words ≠ []) :
    ∃ res, make_guess s g r = some res ∧ res.accepted = true := by
  obtain ⟨⟨k, ws⟩, hbest⟩ :=
    maxGroup_isSome (getWordPatterns_ne_nil s.current_pattern (pyLower g) hne)
  have hws : ws ≠ [] := ((getWordPatterns_ok _ _ _).1 _ (maxGroup_mem hbest)).2
  set gl₂ : List (List Char) := setAdd (pyLower g) s.guessed_letters with hgl
  by_cases hpat : s.current_pattern = k
  · by_cases hblank : '_' ∈ k
    · by_cases hleft : s.guesses_left - 1 ≤ 0
      · obtain ⟨w, hw⟩ := randomChoice_isSome ws r hws
        refine ⟨⟨true,
            { s with
              guessed_letters := gl₂
              current_pattern := k
              possible_words := ws
              guesses_left := s.guesses_left - 1
              game_over := true }, some w⟩, ?_, rfl⟩
        simp only [make_guess, hGo, hNew, hbest]
        simp [hpat, hblank, hleft, hw, hgl]
      · refine ⟨⟨true,
            { s with
              guessed_letters := gl₂
              current_pattern := k
              possible_words := ws
              guesses_left := s.guesses_left - 1 }, none⟩, ?_, rfl⟩
        simp only [make_guess, hGo, hNew, hbest]
        simp [hpat, hblank, hleft, hgl]
    · refine ⟨⟨true,
          { s with
            guessed_letters := gl₂
            current_pattern := k
            possible_words := ws
            guesses_left := s.guesses_left - 1
            game_over := true
            won := true }, none⟩, ?_, rfl⟩
      simp only [make_guess, hGo, hNew, hbest]
      simp [hpat, hblank, hgl]
  · by_cases hblank : '_' ∈ k
    · by_cases hleft : s.guesses_left ≤ 0
      · obtain ⟨w, hw⟩ := randomChoice_isSome ws r hws
        refine ⟨⟨true,
            { s with
              guessed_letters := gl₂
              current_pattern := k
              possible_words := ws
              game_over := true }, some w⟩, ?_, rfl⟩
        simp only [make_guess, hGo, hNew, hbest]
        simp [hpat, hblank, hleft, hw, hgl]
      · refine ⟨⟨true,
            { s with
              guessed_letters := gl₂
              current_pattern := k
              possible_words := ws }, none⟩, ?_, rfl⟩
        simp only [make_guess, hGo, hNew, hbest]
        simp [hpat, hblank, hleft, hgl]
    · refine ⟨⟨true,
          { s with
            guessed_letters := gl₂
            current_pattern := k
            possible_words := ws
            game_over := true
            won := true }, none⟩, ?_, rfl⟩
      simp only [make_guess, hGo, hNew, hbest]
      simp [hpat, hblank, hgl]

/-- Full description of an accepted make_guess call: the guess was fresh and
the game in progress; the new pattern and candidate set are the group chosen
by maxGroup from the induced-pattern grouping; guessed_letters gains the
lowercased guess; guesses_left is decremented exactly when the pattern is
unchanged; and the three termination branches behave as in the source. -/
theorem make_guess_accepted_spec {s : EvilHangman} {g : List Char} {r : Nat}
    {res : GuessResult} (h : make_guess s g r = some res)
    (ha : res.accepted = true) :
    s.game_over = false ∧ pyLower g ∉ s.guessed_letters ∧
    ∃ k ws,
      maxGroup (getWordPatterns s.current_pattern (pyLower g) s.possible_words) =
        some (k, ws) ∧
      res.state.all_words = s.all_words ∧
      res.state.word_length = s.word_length ∧
      res.state.max_guesses = s.max_guesses ∧
      res.state.guessed_letters = pyLower g :: s.guessed_letters ∧
      res.state.current_pattern = k ∧
      res.state.possible_words = ws ∧
      res.state.guesses_left =
        (if s.current_pattern = k then s.guesses_left - 1 else s.guesses_left) ∧
      (('_' ∉ k ∧ res.state.game_over = true ∧ res.state.won = true ∧
          res.revealed = none) ∨
       ('_' ∈ k ∧
          (if s.current_pattern = k then s.guesses_left - 1 else s.guesses_left) ≤ 0 ∧
          res.state.game_over = true ∧ res.state.won = s.won ∧
          ∃ w, res.revealed = some w ∧ w ∈ ws) ∨
       ('_' ∈ k ∧
          ¬(if s.current_pattern = k then s.guesses_left - 1 else s.guesses_left) ≤ 0 ∧
          res.state.game_over = false ∧ res.state.won = s.won ∧
          res.revealed = none)) := by
  cases hgo : s.game_over with
  | true =>
    rw [make_guess_rejected r (Or.inl hgo)] at h
    obtain rfl : (⟨false, s, none⟩ : GuessResult) = res := Option.some_inj.1 h
    simp at ha
  | false =>
    by_cases hmem : pyLower g ∈ s.guessed_letters
    · rw [make_guess_rejected r (Or.inr hmem)] at h
      obtain rfl : (⟨false, s, none⟩ : GuessResult) = res := Option.some_inj.1 h
      simp at ha
    · have hgl : setAdd (pyLower g) s.guessed_letters = pyLower g :: s.guessed_letters := by
        simp [setAdd, hmem]
      rcases hbest : maxGroup (getWordPatterns s.current_pattern (pyLower g) s.possible_words)
        with _ | ⟨k, ws⟩
      · simp only [make_guess, hgo, hmem] at h
        simp [hbest] at h
      · refine ⟨rfl, hmem, k, ws, rfl, ?_⟩
        by_cases hpat : s.current_pattern = k
        · simp only [make_guess, hgo, hmem, hbest] at h
          by_cases hblank : '_' ∈ k
          · by_cases hleft : s.guesses_left - 1 ≤ 0
            · rcases hrc : randomChoice ws r with _ | w
              · simp [hpat, hblank, hleft, hrc] at h
              · simp only [hpat] at h
                simp [hblank, hleft, hrc] at h
                obtain rfl := h.symm
                simp [hgl, hpat, hblank, hleft]
                exact randomChoice_mem hrc
            · simp only [hpat] at h
              simp [hblank, hleft] at h
              obtain rfl := h.symm
              simp [hgl, hpat, hblank, hleft]
          · simp only [hpat] at h
            simp [hblank] at h
            obtain rfl := h.symm
            simp [hgl, hpat, hblank]
        · simp only [make_guess, hgo, hmem, hbest] at h
          by_cases hblank : '_' ∈ k
          · by_cases hleft : s.guesses_left ≤ 0
            · rcases hrc : randomChoice ws r with _ | w
              · simp [hpat, hblank, hleft, hrc] at h
              · simp [hpat, hblank, hleft, hrc] at h
                obtain rfl := h.symm
                simp [hgl, hpat, hblank, hleft]
                exact randomChoice_mem hrc
            · simp [hpat, hblank, hleft] at h
              obtain rfl := h.symm
              simp [hgl, hpat, hblank, hleft]
          · simp [hpat, hblank] at h
            obtain rfl := h.symm
            simp [hgl, hpat, hblank]

/-- A fresh, in-progress make_guess call is accepted. -/
theorem make_guess_accepted_of_fresh {s : EvilHangman} {g : List Char} {r : Nat}
    {res : GuessResult} (hgo : s.game_over = false)
    (hmem : pyLower g ∉ s.guessed_letters) (h : make_guess s g r = some res) :
    res.accepted = true := by
  simp only [make_guess, hgo, hmem] at h
  rcases hbest : maxGroup (getWordPatterns s.current_pattern (pyLower g) s.possible_words)
    with _ | best
  · simp [hbest] at h
  · simp only [Bool.false_eq_true, if_false, if_neg hmem, hbest] at h
    repeat' split at h
    all_goals first
      | (obtain rfl := Option.some_inj.1 h; rfl)
      | simp at h

/-- A rejected make_guess call leaves the state unchanged and reveals nothing. -/
theorem make_guess_rejected_state {s : EvilHangman} {g : List Char} {r : Nat}
    {res : GuessResult} (h : make_guess s g r = some res)
    (ha : res.accepted = false) : res.state = s ∧ res.revealed = none := by
  by_cases hgo : s.game_over = true
  · rw [make_guess_rejected r (Or.inl hgo)] at h
    obtain rfl := Option.some_inj.1 h
    exact ⟨rfl, rfl⟩
  · have hgo₂ : s.game_over = false := by
      cases hb : s.game_over
      · rfl
      · exact absurd hb hgo
    by_cases hmem : pyLower g ∈ s.guessed_letters
    · rw [make_guess_rejected r (Or.inr hmem)] at h
      obtain rfl := Option.some_inj.1 h
      exact ⟨rfl, rfl⟩
    · exact absurd (make_guess_accepted_of_fresh hgo₂ hmem h) (by simp [ha])

/-! ### Consistency invariant -/

theorem consistentWith_replicate (n : Nat) :
    ∀ w : Word, w.length = n → consistentWith [] (List.replicate n '_') w := by
  induction n with
  | zero =>
    intro w hw
    rw [List.length_eq_zero] at hw
    subst hw
    simp [consistentWith]
  | succ n ih =>
    intro w hw
    cases w with
    | nil => simp at hw
    | cons wc w =>
      simp only [List.length_cons, Nat.succ.injEq] at hw
      simp [consistentWith, List.replicate_succ, ih w hw]

theorem consistentWith_length {gl : List (List Char)} :
    ∀ (p : List Char) (w : Word), consistentWith gl p w → p.length = w.length := by
  intro p
  induction p with
  | nil =>
    intro w h
    cases w with
    | nil => rfl
    | cons _ _ => exact absurd h (by simp [consistentWith])
  | cons pc p ih =>
    intro w h
    cases w with
    | nil => exact absurd h (by simp [consistentWith])
    | cons wc w =>
      simp only [consistentWith] at h
      simp [ih w h.2]

theorem consistentWith_get {gl : List (List Char)} :
    ∀ (p : List Char) (w : Word), consistentWith gl p w →
      ∀ (i : Nat) (c d : Char), p[i]? = some c → w[i]? = some d →
        (c ≠ '_' → d = c) ∧ (c = '_' → [d] ∉ gl) := by
  intro p
  induction p with
  | nil =>
    intro w h i c d hc hd
    simp at hc
  | cons pc p ih =>
    intro w h i c d hc hd
    cases w with
    | nil => exact absurd h (by simp [consistentWith])
    | cons wc w =>
      simp only [consistentWith] at h
      cases i with
      | zero =>
        simp only [List.getElem?_cons_zero, Option.some.injEq] at hc hd
        subst hc
        subst hd
        constructor
        · intro hne
          have h₁ := h.1
          rw [if_neg hne] at h₁
          exact h₁
        · intro heq
          have h₁ := h.1
          rw [if_pos heq] at h₁
          exact h₁
      | succ i =>
        simp only [List.getElem?_cons_succ] at hc hd
        exact ih w h.2 i c d hc hd

theorem consistentWith_induced (guess : List Char) (gl : List (List Char)) :
    ∀ (w : Word) (p : List Char), consistentWith gl p w → (∀ c ∈ w, c ∈ azChars) →
      consistentWith (guess :: gl) (inducedPattern guess p w) w := by
  intro w
  induction w with
  | nil =>
    intro p h _
    rw [inducedPattern_nil_word]
    cases p with
    | nil => simp [consistentWith]
    | cons _ _ => exact absurd h (by simp [consistentWith])
  | cons wc w ih =>
    intro p h haz
    cases p with
    | nil => exact absurd h (by simp [consistentWith])
    | cons pc p =>
      simp only [consistentWith] at h
      simp only [inducedPattern]
      by_cases hg : [wc] = guess
      · rw [if_pos hg]
        simp only [consistentWith]
        constructor
        · have hwc : wc ∈ azChars := haz wc (by simp)
          have hne : wc ≠ '_' := by
            intro he
            subst he
            exact absurd hwc (by decide)
          rw [if_neg hne]
          trivial
        · exact ih p h.2 (fun c hc => haz c (List.mem_cons_of_mem _ hc))
      · rw [if_neg hg]
        simp only [consistentWith]
        constructor
        · by_cases hpc : pc = '_'
          · rw [if_pos hpc] at h ⊢
            intro hmem
            rcases List.mem_cons.1 hmem with he | he
            · exact hg he
            · exact h.1 he
          · rw [if_neg hpc] at h ⊢
            exact h.1
        · exact ih p h.2 (fun c hc => haz c (List.mem_cons_of_mem _ hc))

theorem lookup_mem {aw : List (Nat × List Word)} {L : Nat} {ws : List Word}
    (h : aw.lookup L = some ws) : (L, ws) ∈ aw := by
  induction aw with
  | nil => simp [List.lookup] at h
  | cons p rest ih =>
    obtain ⟨k, v⟩ := p
    by_cases hk : L = k
    · subst hk
      simp [List.lookup] at h
      subst h
      exact List.mem_cons_self _ _
    · have hbeq : (L == k) = false := beq_eq_false_iff_ne.2 hk
      rw [List.lookup, hbeq] at h
      exact List.mem_cons_of_mem _ (ih h)

theorem inv_start {s : EvilHangman} {L : Nat} {M : Int}
    (hwf : WFIndex s.all_words) (hs : (start_game s L M).1 = true) :
    SessionInv (start_game s L M).2 := by
  rcases hlk : s.all_words.lookup L with _ | ws
  · simp [start_game, hlk] at hs
  · by_cases hlt : ws.length < 2
    · simp [start_game, hlk, hlt] at hs
    · obtain ⟨hL1, hwords⟩ := hwf (L, ws) (lookup_mem hlk)
      have hres : (start_game s L M).2 =
          { s with
            word_length := L
            max_guesses := M
            guesses_left := M
            guessed_letters := []
            current_pattern := List.replicate L '_'
            possible_words := ws
            game_over := false
            won := false } := by
        simp [start_game, hlk, hlt]
      rw [hres]
      refine ⟨?_, ?_, ?_, ?_, ?_⟩
      · simp only
        intro he
        rw [he] at hlt
        simp at hlt
      · simp
      · simp
      · simp only
        intro _
        exact List.mem_replicate.2 ⟨by omega, rfl⟩
      · intro w hw
        obtain ⟨hwlen, haz⟩ := hwords w hw
        exact ⟨haz, consistentWith_replicate L w hwlen⟩

theorem inv_step {s : EvilHangman} {g : List Char} {r : Nat} {res : GuessResult}
    (hinv : SessionInv s) (h : make_guess s g r = some res) :
    SessionInv res.state := by
  cases ha : res.accepted with
  | false =>
    rw [(make_guess_rejected_state h ha).1]
    exact hinv
  | true =>
    obtain ⟨hgo, hmem, k, ws, hbest, hAll, hWL, hMG, hGL, hPat, hPW, hLeft, hbr⟩ :=
      make_guess_accepted_spec h ha
    obtain ⟨hne, hlen, hwon, hblankInv, hwords⟩ := hinv
    have hOK := getWordPatterns_ok s.current_pattern (pyLower g) s.possible_words
    have hmemG := maxGroup_mem hbest
    have hws_filter : ws = s.possible_words.filter
        (fun w => decide (inducedPattern (pyLower g) s.current_pattern w = k)) :=
      (hOK.1 _ hmemG).1
    have hws_ne : ws ≠ [] := (hOK.1 _ hmemG).2
    have hk_len : k.length = s.current_pattern.length := by
      obtain ⟨w₀, hw₀⟩ := List.exists_mem_of_ne_nil ws hws_ne
      rw [hws_filter] at hw₀
      have hmf := List.mem_filter.1 hw₀
      have hkey : inducedPattern (pyLower g) s.current_pattern w₀ = k := by
        simpa using hmf.2
      rw [← hkey, inducedPattern_length]
    refine ⟨?_, ?_, ?_, ?_, ?_⟩
    · rw [hPW]
      exact hws_ne
    · rw [hPat, hWL, hk_len, hlen]
    · rcases hbr with ⟨_, hgo₂, _, _⟩ | ⟨_, _, hgo₂, _, _⟩ | ⟨_, _, hgo₂, hwon₂, _⟩
      · rw [hgo₂]
        simp
      · rw [hgo₂]
        simp
      · rw [hwon₂]
        intro _
        exact hwon hgo
    · rcases hbr with ⟨_, hgo₂, _, _⟩ | ⟨_, _, hgo₂, _, _⟩ | ⟨hb, _, hgo₂, _, _⟩
      · rw [hgo₂]
        simp
      · rw [hgo₂]
        simp
      · intro _
        rw [hPat]
        exact hb
    · intro w hw
      rw [hPW, hws_filter] at hw
      have hmf := List.mem_filter.1 hw
      have hw_mem : w ∈ s.possible_words := hmf.1
      have hkey : inducedPattern (pyLower g) s.current_pattern w = k := by
        simpa using hmf.2
      obtain ⟨haz, hcons⟩ := hwords w hw_mem
      refine ⟨haz, ?_⟩
      rw [hGL, hPat, ← hkey]
      exact consistentWith_induced (pyLower g) s.guessed_letters w s.current_pattern hcons haz

theorem reachable_inv {s : EvilHangman} (h : Reachable s) : SessionInv s := by
  induction h with
  | start s L M hwf hs => exact inv_start hwf hs
  | step s g r res hr hmk ih => exact inv_step ih hmk

/-! ### Lemmas about sequences of guesses -/

theorem az_toLower : ∀ c ∈ azChars, c.toLower = c := by decide

theorem az_isAlpha : ∀ c ∈ azChars, c.isAlpha = true := by decide

theorem make_guess_gameover_state {s : EvilHangman} {g : List Char} {r : Nat}
    {res : GuessResult} (h : make_guess s g r = some res)
    (hgo : s.game_over = true) : res = ⟨false, s, none⟩ := by
  rw [make_guess_rejected r (Or.inl hgo)] at h
  exact (Option.some_inj.1 h).symm

theorem playGuesses_gameover {gs : List (List Char × Nat)} :
    ∀ {s s₂ : EvilHangman}, s.game_over = true → playGuesses s gs = some s₂ → s₂ = s := by
  induction gs with
  | nil =>
    intro s s₂ _ h
    exact (Option.some_inj.1 h).symm
  | cons q rest ih =>
    intro s s₂ hgo h
    obtain ⟨g, r⟩ := q
    simp only [playGuesses] at h
    rcases hmk : make_guess s g r with _ | res
    · rw [hmk] at h
      simp at h
    · rw [hmk] at h
      have hres := make_guess_gameover_state hmk hgo
      subst hres
      exact ih hgo h

theorem make_guess_guessed_mono {s : EvilHangman} {g : List Char} {r : Nat}
    {res : GuessResult} (h : make_guess s g r = some res) :
    ∀ x ∈ s.guessed_letters, x ∈ res.state.guessed_letters := by
  cases ha : res.accepted with
  | false =>
    rw [(make_guess_rejected_state h ha).1]
    intro x hx
    exact hx
  | true =>
    obtain ⟨_, _, k, ws, _, _, _, _, hGL, _⟩ := make_guess_accepted_spec h ha
    rw [hGL]
    intro x hx
    exact List.mem_cons_of_mem _ hx

theorem playGuesses_guessed_mono {gs : List (List Char × Nat)} :
    ∀ {s s₂ : EvilHangman}, playGuesses s gs = some s₂ →
      ∀ x ∈ s.guessed_letters, x ∈ s₂.guessed_letters := by
  induction gs with
  | nil =>
    intro s s₂ h
    obtain rfl := Option.some_inj.1 h
    intro x hx
    exact hx
  | cons q rest ih =>
    intro s s₂ h
    obtain ⟨g, r⟩ := q
    simp only [playGuesses] at h
    rcases hmk : make_guess s g r with _ | res
    · rw [hmk] at h
      simp at h
    · rw [hmk] at h
      intro x hx
      exact ih h x (make_guess_guessed_mono hmk x hx)

theorem inv_play {gs : List (List Char × Nat)} :
    ∀ {s s₂ : EvilHangman}, SessionInv s → playGuesses s gs = some s₂ → SessionInv s₂ := by
  induction gs with
  | nil =>
    intro s s₂ hinv h
    obtain rfl := Option.some_inj.1 h
    exact hinv
  | cons q rest ih =>
    intro s s₂ hinv h
    obtain ⟨g, r⟩ := q
    simp only [playGuesses] at h
    rcases hmk : make_guess s g r with _ | res
    · rw [hmk] at h
      simp at h
    · rw [hmk] at h
      exact ih (inv_step hinv hmk) h

theorem playGuesses_covers {gs : List (List Char × Nat)} :
    ∀ {s s₂ : EvilHangman}, SessionInv s → playGuesses s gs = some s₂ →
      ∀ p ∈ gs, s₂.game_over = true ∨ pyLower p.1 ∈ s₂.guessed_letters := by
  induction gs with
  | nil =>
    intro s s₂ _ _ p hp
    simp at hp
  | cons q rest ih =>
    intro s s₂ hinv h p hp
    obtain ⟨g, r⟩ := q
    simp only [playGuesses] at h
    rcases hmk : make_guess s g r with _ | res
    · rw [hmk] at h
      simp at h
    · rw [hmk] at h
      rcases List.mem_cons.1 hp with rfl | hp
      · cases hgo : s.game_over with
        | true =>
          have hres := make_guess_gameover_state hmk hgo
          subst hres
          left
          rw [playGuesses_gameover hgo h]
          exact hgo
        | false =>
          by_cases hmem : pyLower g ∈ s.guessed_letters
          · right
            have hrej := make_guess_rejected r (Or.inr hmem)
            rw [hmk] at hrej
            obtain rfl := Option.some_inj.1 hrej
            exact playGuesses_guessed_mono h _ hmem
          · right
            have ha := make_guess_accepted_of_fresh hgo hmem hmk
            obtain ⟨_, _, k, ws, _, _, _, _, hGL, _⟩ := make_guess_accepted_spec hmk ha
            refine playGuesses_guessed_mono h _ ?_
            rw [hGL]
            exact List.mem_cons_self _ _
      · exact ih (inv_step hinv hmk) h p hp

/-- When every lowercase letter has been guessed, a state satisfying the
session invariant must be game over: a blank position would exhibit a
candidate character that was never guessed. -/
theorem allGuessed_gameover {s : EvilHangman} (hinv : SessionInv s)
    (hall : ∀ c ∈ azChars, [c] ∈ s.guessed_letters) : s.game_over = true := by
  cases hgo : s.game_over with
  | true => rfl
  | false =>
    exfalso
    obtain ⟨hne, hlen, hwon, hblankInv, hwords⟩ := hinv
    have hblank : '_' ∈ s.current_pattern := hblankInv hgo
    obtain ⟨i, hi, hgetp⟩ := List.mem_iff_getElem.1 hblank
    obtain ⟨w, hw⟩ := List.exists_mem_of_ne_nil _ hne
    obtain ⟨haz, hcons⟩ := hwords w hw
    have hlen₂ : s.current_pattern.length = w.length := consistentWith_length _ _ hcons
    have hiw : i < w.length := hlen₂ ▸ hi
    have hpi : s.current_pattern[i]? = some '_' := by
      rw [List.getElem?_eq_getElem hi, hgetp]
    have hdi : w[i]? = some w[i] := List.getElem?_eq_getElem hiw
    have hspec := consistentWith_get _ _ hcons i '_' w[i] hpi hdi
    exact hspec.2 rfl (hall _ (haz _ (List.getElem_mem hiw)))

/-! ### Lemmas for guesses matching no word position -/

theorem inducedPattern_eq_self (guess : List Char) :
    ∀ (w : Word) (p : List Char), (∀ c ∈ w, [c] ≠ guess) →
      inducedPattern guess p w = p := by
  intro w
  induction w with
  | nil => intro p _; exact inducedPattern_nil_word guess p
  | cons wc w ih =>
    intro p hno
    cases p with
    | nil => rfl
    | cons pc p =>
      simp only [inducedPattern]
      rw [if_neg (hno wc (by simp))]
      rw [ih p (fun c hc => hno c (List.mem_cons_of_mem _ hc))]

theorem groupWords_const (key : Word → List Char) (k : List Char) :
    ∀ (words pre : List Word), (∀ w ∈ words, key w = k) →
      groupWords key words [(k, pre)] = [(k, pre ++ words)] := by
  intro words
  induction words with
  | nil =>
    intro pre _
    simp [groupWords]
  | cons w ws ih =>
    intro pre hk
    simp only [groupWords, List.foldl_cons]
    have h₁ : groupInsert (key w) w [(k, pre)] = [(k, pre ++ [w])] := by
      simp [groupInsert, hk w (List.mem_cons_self _ _)]
    rw [h₁]
    have h₂ := ih (pre ++ [w]) (fun x hx => hk x (List.mem_cons_of_mem _ hx))
    simpa [groupWords, List.append_assoc] using h₂

theorem getWordPatterns_const (pat guess : List Char) (words : List Word)
    (hne : words ≠ [])
    (hall : ∀ w ∈ words, inducedPattern guess pat w = pat) :
    getWordPatterns pat guess words = [(pat, words)] := by
  cases words with
  | nil => exact absurd rfl hne
  | cons w ws =>
    simp only [getWordPatterns, groupWords, List.foldl_cons]
    have h₁ : groupInsert (inducedPattern guess pat w) w [] =
        [(inducedPattern guess pat w, [w])] := rfl
    rw [h₁, hall w (List.mem_cons_self _ _)]
    have h₂ := groupWords_const (fun x => inducedPattern guess pat x) pat ws [w]
      (fun x hx => hall x (List.mem_cons_of_mem _ hx))
    simpa [groupWords] using h₂

/-! ### Claim theorems -/

/-- C1: for every in-progress session and every accepted guess letter,
make_guess partitions the current candidate set by induced pattern (the
grouping has distinct keys, each group is exactly the words whose induced
pattern is its key, and every word falls in some group), and the new pattern
and candidate set are the key and word set of a group of maximal word count:
no group has strictly more words. -/
theorem evil_C1 (s : EvilHangman) (g : List Char) (r : Nat)
    (hne : s.possible_words ≠ []) (hgo : s.game_over = false)
    (hfresh : pyLower g ∉ s.guessed_letters) :
    ∃ res, make_guess s g r = some res ∧ res.accepted = true ∧
      ((getWordPatterns s.current_pattern (pyLower g) s.possible_words).map Prod.fst).Nodup ∧
      (∀ p ∈ getWordPatterns s.current_pattern (pyLower g) s.possible_words,
        p.2 = s.possible_words.filter
          (fun w => decide (inducedPattern (pyLower g) s.current_pattern w = p.1))) ∧
      (∀ w ∈ s.possible_words,
        inducedPattern (pyLower g) s.current_pattern w ∈
          (getWordPatterns s.current_pattern (pyLower g) s.possible_words).map Prod.fst) ∧
      (res.state.current_pattern, res.state.possible_words) ∈
        getWordPatterns s.current_pattern (pyLower g) s.possible_words ∧
      (∀ p ∈ getWordPatterns s.current_pattern (pyLower g) s.possible_words,
        p.2.length ≤ res.state.possible_words.length) := by
  obtain ⟨res, hmk, ha⟩ := make_guess_total s g r hgo hfresh hne
  obtain ⟨_, _, k, ws, hbest, _, _, _, _, hPat, hPW, _, _⟩ :=
    make_guess_accepted_spec hmk ha
  have hOK := getWordPatterns_ok s.current_pattern (pyLower g) s.possible_words
  refine ⟨res, hmk, ha, hOK.2.1, fun p hp => (hOK.1 p hp).1, hOK.2.2, ?_, ?_⟩
  · rw [hPat, hPW]
    exact maxGroup_mem hbest
  · intro p hp
    rw [hPW]
    exact maxGroup_le hbest p hp

/-- C2: after every accepted make_guess from a reachable session, a pattern
with no blank means a won, finished game (the win check runs first);
otherwise with no guesses left the game is finished, not won, and the
revealed answer word is a member of the final candidate set. -/
theorem evil_C2 (s : EvilHangman) (g : List Char) (r : Nat) (res : GuessResult)
    (hreach : Reachable s) (h : make_guess s g r = some res)
    (ha : res.accepted = true) :
    ('_' ∉ res.state.current_pattern →
       res.state.game_over = true ∧ res.state.won = true) ∧
    ('_' ∈ res.state.current_pattern → res.state.guesses_left ≤ 0 →
       res.state.game_over = true ∧ res.state.won = false ∧
       ∃ w, res.revealed = some w ∧ w ∈ res.state.possible_words) := by
  have hinv := reachable_inv hreach
  obtain ⟨hgo, _, k, ws, _, _, _, _, _, hPat, hPW, hLeft, hbr⟩ :=
    make_guess_accepted_spec h ha
  have hswon : s.won = false := hinv.2.2.1 hgo
  constructor
  · intro hnb
    rw [hPat] at hnb
    rcases hbr with ⟨_, hgo₂, hwon₂, _⟩ | ⟨hb, _, _, _, _⟩ | ⟨hb, _, _, _, _⟩
    · exact ⟨hgo₂, hwon₂⟩
    · exact absurd hb hnb
    · exact absurd hb hnb
  · intro hb hleft
    rcases hbr with ⟨hnb, _, _, _⟩ | ⟨_, _, hgo₂, hwon₂, hrev⟩ | ⟨_, hnle, _, _, _⟩
    · rw [hPat] at hb
      exact absurd hb hnb
    · refine ⟨hgo₂, ?_, ?_⟩
      · rw [hwon₂, hswon]
      · rw [hPW]
        exact hrev
    · rw [hLeft] at hleft
      exact absurd hleft hnle

/-- C3: in every reachable session, every candidate word has the session's
word length, agrees with the pattern at every revealed position, and at
every blank position holds a character that was never guessed. -/
theorem evil_C3 (s : EvilHangman) (hreach : Reachable s) :
    ∀ w ∈ s.possible_words,
      w.length = s.word_length ∧
      ∀ (i : Nat) (c d : Char), s.current_pattern[i]? = some c → w[i]? = some d →
        (c ≠ '_' → d = c) ∧ (c = '_' → [d] ∉ s.guessed_letters) := by
  have hinv := reachable_inv hreach
  obtain ⟨_, hlen, _, _, hwords⟩ := hinv
  intro w hw
  obtain ⟨_, hcons⟩ := hwords w hw
  constructor
  · rw [← hlen]
    exact (consistentWith_length _ _ hcons).symm
  · exact consistentWith_get _ _ hcons

/-- C4: in every reachable session (after start_game and after any sequence
of make_guess calls, accepted or rejected), the candidate set is non-empty. -/
theorem evil_C4 (s : EvilHangman) (hreach : Reachable s) :
    s.possible_words ≠ [] :=
  (reachable_inv hreach).1

/-- C5: guesses_left starts at max_guesses, and an accepted make_guess
decrements guesses_left by exactly one exactly when the new pattern equals
the old pattern (a miss); on a hit it is unchanged. -/
theorem evil_C5 :
    (∀ (s : EvilHangman) (L : Nat) (M : Int),
        (start_game s L M).1 = true → (start_game s L M).2.guesses_left = M) ∧
    (∀ (s : EvilHangman) (g : List Char) (r : Nat) (res : GuessResult),
        make_guess s g r = some res → res.accepted = true →
        ((res.state.current_pattern = s.current_pattern →
            res.state.guesses_left = s.guesses_left - 1) ∧
         (res.state.current_pattern ≠ s.current_pattern →
            res.state.guesses_left = s.guesses_left))) := by
  constructor
  · intro s L M h
    rcases hlk : s.all_words.lookup L with _ | ws
    · simp [start_game, hlk] at h
    · by_cases hlt : ws.length < 2
      · simp [start_game, hlk, hlt] at h
      · simp [start_game, hlk, hlt]
  · intro s g r res h ha
    obtain ⟨_, _, k, ws, _, _, _, _, _, hPat, _, hLeft, _⟩ :=
      make_guess_accepted_spec h ha
    constructor
    · intro hp
      rw [hPat] at hp
      rw [hLeft, if_pos hp.symm]
    · intro hp
      rw [hLeft, if_neg]
      intro he
      apply hp
      rw [hPat, ← he]

/-- C7: on a finished game or a repeated (lowercased) letter, make_guess is
rejected and the whole session state is unchanged; in particular guessing
the same letter right after an accepted guess of it is rejected with no
state change. -/
theorem evil_C7 :
    (∀ (s : EvilHangman) (g : List Char) (r : Nat),
        s.game_over = true ∨ pyLower g ∈ s.guessed_letters →
        make_guess s g r = some ⟨false, s, none⟩) ∧
    (∀ (s : EvilHangman) (g : List Char) (r r₂ : Nat) (res : GuessResult),
        make_guess s g r = some res → res.accepted = true →
        make_guess res.state g r₂ = some ⟨false, res.state, none⟩) := by
  constructor
  · intro s g r h
    exact make_guess_rejected r h
  · intro s g r r₂ res h ha
    obtain ⟨_, _, k, ws, _, _, _, _, hGL, _⟩ := make_guess_accepted_spec h ha
    apply make_guess_rejected
    right
    rw [hGL]
    exact List.mem_cons_self _ _

/-- C8: start_game on a length that is not a key of the index, or whose word
pool has fewer than two words, fails and returns the session state entirely
unchanged. -/
theorem evil_C8 (s : EvilHangman) (L : Nat) (M : Int)
    (h : s.all_words.lookup L = none ∨
         ∃ ws, s.all_words.lookup L = some ws ∧ ws.length < 2) :
    start_game s L M = (false, s) := by
  rcases h with h | ⟨ws, h, hlt⟩
  · simp [start_game, h]
  · simp [start_game, h, hlt]

/-- C10: the engine does not validate the shape of a guess: a fresh guess
whose lowercase form is empty, multi-character, or a non-alphabetic single
character is accepted, matches no position of any (alphabetic) candidate
word, leaves pattern and candidates unchanged, and is processed as a miss
that decrements guesses_left, losing the game when at most one guess was
left. -/
theorem evil_C10 (s : EvilHangman) (g : List Char) (r : Nat)
    (hne : s.possible_words ≠ []) (hgo : s.game_over = false)
    (hwon : s.won = false) (hblank : '_' ∈ s.current_pattern)
    (haz : ∀ w ∈ s.possible_words, ∀ c ∈ w, c ∈ azChars)
    (hfresh : pyLower g ∉ s.guessed_letters)
    (hshape : (pyLower g).length ≠ 1 ∨
      ∃ c, pyLower g = [c] ∧ c.isAlpha = false) :
    ∃ res, make_guess s g r = some res ∧ res.accepted = true ∧
      res.state.current_pattern = s.current_pattern ∧
      res.state.possible_words = s.possible_words ∧
      res.state.guesses_left = s.guesses_left - 1 ∧
      (s.guesses_left ≤ 1 →
        res.state.game_over = true ∧ res.state.won = false) := by
  have hnomatch : ∀ w ∈ s.possible_words, ∀ c ∈ w, [c] ≠ pyLower g := by
    intro w hw c hc
    rcases hshape with hlen | ⟨d, hgd, hdal⟩
    · intro he
      apply hlen
      rw [← he]
      rfl
    · rw [hgd]
      intro he
      have hcd : c = d := by
        injection he
      have hca : c.isAlpha = true := az_isAlpha c (haz w hw c hc)
      rw [hcd, hdal] at hca
      cases hca
  have hconst : getWordPatterns s.current_pattern (pyLower g) s.possible_words =
      [(s.current_pattern, s.possible_words)] :=
    getWordPatterns_const _ _ _ hne
      (fun w hw => inducedPattern_eq_self (pyLower g) w s.current_pattern
        (fun c hc => hnomatch w hw c hc))
  have hbest : maxGroup (getWordPatterns s.current_pattern (pyLower g) s.possible_words) =
      some (s.current_pattern, s.possible_words) := by
    rw [hconst]
    rfl
  obtain ⟨res, hmk, ha⟩ := make_guess_total s g r hgo hfresh hne
  obtain ⟨_, _, k, ws, hbest₂, _, _, _, _, hPat, hPW, hLeft, hbr⟩ :=
    make_guess_accepted_spec hmk ha
  rw [hbest] at hbest₂
  obtain ⟨hk, hws⟩ : s.current_pattern = k ∧ s.possible_words = ws := by
    have := Option.some_inj.1 hbest₂
    exact ⟨congrArg Prod.fst this, congrArg Prod.snd this⟩
  have hPat₂ : res.state.current_pattern = s.current_pattern := by
    rw [hPat, ← hk]
  have hPW₂ : res.state.possible_words = s.possible_words := by
    rw [hPW, ← hws]
  have hLeft₂ : res.state.guesses_left = s.guesses_left - 1 := by
    rw [hLeft, if_pos hk]
  refine ⟨res, hmk, ha, hPat₂, hPW₂, hLeft₂, ?_⟩
  intro hone
  rcases hbr with ⟨hnb, _, _, _⟩ | ⟨_, _, hgo₂, hwon₂, _⟩ | ⟨_, hnle, _, _, _⟩
  · rw [← hk] at hnb
    exact absurd hblank hnb
  · exact ⟨hgo₂, by rw [hwon₂, hwon]⟩
  · exfalso
    apply hnle
    rw [if_pos hk]
    omega

/-- C6 counterexample: with the four-word index of the design scenario and
the non-positive guess budget 0, start_game(4, 0) succeeds, so the engine
does not reject non-positive guess budgets as the claim states. -/
theorem evil_C6_counterexample :
    (0 : Int) ≤ 0 ∧ (start_game testEngine 4 0).1 = true := by
  constructor
  · decide
  · decide

/-- C6 amended: start_game never inspects max_guesses; it fails exactly when
the requested length is not a key of the index or its word pool has fewer
than two words, and in particular succeeds for every max_guesses, including
non-positive ones, whenever the length is valid. -/
theorem evil_C6_amended (s : EvilHangman) (L : Nat) (M : Int) :
    (start_game s L M).1 = false ↔
      s.all_words.lookup L = none ∨
        ∃ ws, s.all_words.lookup L = some ws ∧ ws.length < 2 := by
  rcases hlk : s.all_words.lookup L with _ | ws
  · simp [start_game, hlk]
  · by_cases hlt : ws.length < 2
    · simp [start_game, hlk, hlt]
    · simp [start_game, hlk, hlt]

/-- C9: from any successfully started game on a well-formed index, a guess
sequence containing all 26 lowercase letters always ends with game_over
true, whatever max_guesses and the index hold. -/
theorem evil_C9 (s : EvilHangman) (L : Nat) (M : Int)
    (gs : List (List Char × Nat)) (s₂ : EvilHangman)
    (hwf : WFIndex s.all_words)
    (hstart : (start_game s L M).1 = true)
    (hall : ∀ c ∈ azChars, ∃ p ∈ gs, p.1 = [c])
    (hplay : playGuesses (start_game s L M).2 gs = some s₂) :
    s₂.game_over = true := by
  have hinv := inv_start hwf hstart
  have hinv₂ := inv_play hinv hplay
  have hcov := playGuesses_covers hinv hplay
  cases hgo : s₂.game_over with
  | true => rfl
  | false =>
    exfalso
    have hall₂ : ∀ c ∈ azChars, [c] ∈ s₂.guessed_letters := by
      intro c hc
      obtain ⟨p, hp, hpc⟩ := hall c hc
      rcases hcov p hp with hover | hgl
      · rw [hover] at hgo
        cases hgo
      · rw [hpc] at hgl
        have hlow : pyLower [c] = [c] := by
          simp [pyLower, az_toLower c hc]
        rwa [hlow] at hgl
    have := allGuessed_gameover hinv₂ hall₂
    rw [this] at hgo
    cases hgo

/-! ### Witnesses -/

/-- Result of guessing the letter a right after starting the test game. -/
def testRes : GuessResult :=
  (make_guess testStart ['a'] 0).getD ⟨false, testEngine, none⟩

/-- One guess for each of the 26 lowercase letters, in alphabet order. -/
def azGuesses : List (List Char × Nat) := azChars.map (fun c => ([c], 0))

/-- The state after playing the full alphabet through the test game. -/
def testFinal : EvilHangman := (playGuesses testStart azGuesses).getD testEngine

/-- Witness for C1 on the four-word game: guessing a is accepted and the new
pattern and candidate set form a maximal group of the induced grouping. -/
theorem evil_C1_witness :
    ∃ res, make_guess testStart ['a'] 0 = some res ∧ res.accepted = true ∧
      (res.state.current_pattern, res.state.possible_words) ∈
        getWordPatterns testStart.current_pattern (pyLower ['a'])
          testStart.possible_words ∧
      ∀ p ∈ getWordPatterns testStart.current_pattern (pyLower ['a'])
          testStart.possible_words,
        p.2.length ≤ res.state.possible_words.length := by
  obtain ⟨res, h1, h2, _, _, _, h6, h7⟩ :=
    evil_C1 testStart ['a'] 0 (by decide) (by decide) (by decide)
  exact ⟨res, h1, h2, h6, h7⟩

/-- Witness for C2 at the concrete accepted guess a on the test game. -/
theorem evil_C2_witness :
    ('_' ∉ testRes.state.current_pattern →
       testRes.state.game_over = true ∧ testRes.state.won = true) ∧
    ('_' ∈ testRes.state.current_pattern → testRes.state.guesses_left ≤ 0 →
       testRes.state.game_over = true ∧ testRes.state.won = false ∧
       ∃ w, testRes.revealed = some w ∧ w ∈ testRes.state.possible_words) :=
  evil_C2 testStart ['a'] 0 testRes
    (Reachable.start testEngine 4 6 (by unfold WFIndex; decide) (by decide)) (by decide) (by decide)

/-- Witness for C3 at the word dogs in the freshly started test game. -/
theorem evil_C3_witness :
    wDogs.length = testStart.word_length ∧
    ('_' ≠ '_' → 'd' = '_') ∧
    ('_' = '_' → ['d'] ∉ testStart.guessed_letters) := by
  obtain ⟨h1, h2⟩ := evil_C3 testStart
    (Reachable.start testEngine 4 6 (by unfold WFIndex; decide) (by decide)) wDogs (by decide)
  exact ⟨h1, h2 0 '_' 'd' (by decide) (by decide)⟩

/-- Witness for C4 at the freshly started test game. -/
theorem evil_C4_witness : testStart.possible_words ≠ [] :=
  evil_C4 testStart (Reachable.start testEngine 4 6 (by unfold WFIndex; decide) (by decide))

/-- Witness for C5 on the test game and its first guess. -/
theorem evil_C5_witness :
    (start_game testEngine 4 6).2.guesses_left = 6 ∧
    ((testRes.state.current_pattern = testStart.current_pattern →
        testRes.state.guesses_left = testStart.guesses_left - 1) ∧
     (testRes.state.current_pattern ≠ testStart.current_pattern →
        testRes.state.guesses_left = testStart.guesses_left)) :=
  ⟨evil_C5.1 testEngine 4 6 (by decide),
   evil_C5.2 testStart ['a'] 0 testRes (by decide) (by decide)⟩

/-- Witness for C7: guessing a twice on the test game, the second attempt is
rejected without touching the state. -/
theorem evil_C7_witness :
    make_guess testRes.state ['a'] 0 = some ⟨false, testRes.state, none⟩ ∧
    make_guess testRes.state ['a'] 1 = some ⟨false, testRes.state, none⟩ :=
  ⟨evil_C7.1 testRes.state ['a'] 0 (Or.inr (by decide)),
   evil_C7.2 testStart ['a'] 0 1 testRes (by decide) (by decide)⟩

/-- Witness for C8: starting with the absent length 7 fails and returns the
in-progress session unchanged. -/
theorem evil_C8_witness : start_game testStart 7 5 = (false, testStart) :=
  evil_C8 testStart 7 5 (Or.inl (by decide))

/-- Witness for C9: playing the whole alphabet through the test game ends
with game_over true. -/
theorem evil_C9_witness : testFinal.game_over = true :=
  evil_C9 testEngine 4 6 azGuesses testFinal (by unfold WFIndex; decide) (by decide)
    (by decide) (by decide)

/-- Witness for C10: the unvalidated two-character guess xy is accepted on
the test game and processed as a miss. -/
theorem evil_C10_witness :
    ∃ res, make_guess testStart ['x','y'] 0 = some res ∧ res.accepted = true ∧
      res.state.current_pattern = testStart.current_pattern ∧
      res.state.possible_words = testStart.possible_words ∧
      res.state.guesses_left = testStart.guesses_left - 1 ∧
      (testStart.guesses_left ≤ 1 →
        res.state.game_over = true ∧ res.state.won = false) :=
  evil_C10 testStart ['x','y'] 0 (by decide) (by decide) (by decide) (by decide)
    (by decide) (by decide) (Or.inl (by decide))
